import Mathlib

set_option maxRecDepth 40000

/-!
Verification of the `company_scraper` crawl-and-extract pipeline.

The Python source is shallowly embedded: pure helper functions from
`utils.py`, `extractor.py` and `parser.py` become Lean functions over
`List Char` / `String`, and the orchestrator `runner.run` becomes a Lean
function parametrised by the fetch transport and the document parser
(both are external collaborators in the source design: Selenium and
BeautifulSoup).  Python regular-expression calls are embedded as explicit
backtracking scanners following `re.findall` semantics (leftmost match,
greedy alternatives in backtracking order, non-overlapping scan).
Several helpers use an explicit fuel argument (initialised to the input
length) purely to make the recursion structural; the fuel is always
sufficient because every step consumes at least one character.
-/

namespace CompanyScraper

/-! ## Character classes (ASCII, matching Python `re` semantics for the
patterns used in the source) -/

/-- Python `\s` / `str.strip()` whitespace for the ASCII range. -/
def isPySpace (c : Char) : Bool :=
  c = ' ' || c = '\t' || c = '\n' || c = '\r' || c = '\x0b' || c = '\x0c'

/-- Python `\w` word character for the ASCII range. -/
def isWordC (c : Char) : Bool :=
  c.isAlpha || c.isDigit || c = '_'

/-- Character class of the email local part: `[a-zA-Z0-9._%+-]`. -/
def isLocalC (c : Char) : Bool :=
  c.isAlpha || c.isDigit || c = '.' || c = '_' || c = '%' || c = '+' || c = '-'

/-- Character class of the email domain part: `[a-zA-Z0-9.-]`. -/
def isDomainC (c : Char) : Bool :=
  c.isAlpha || c.isDigit || c = '.' || c = '-'

/-! ## Generic list/string helpers mirroring the Python string methods used -/

/-- Does `l` start with `pre`? (Boolean prefix test; first argument is the
candidate prefix.) -/
def startsWithL : List Char → List Char → Bool
  | [], _ => true
  | _ :: _, [] => false
  | a :: as, b :: bs => a = b && startsWithL as bs

/-- Python `needle in hay` substring test. -/
def containsSub (hay needle : List Char) : Bool :=
  match hay with
  | [] => startsWithL needle []
  | _ :: t => startsWithL needle hay || containsSub t needle

/-- Python `str.lower()` (ASCII). -/
def lowerL (l : List Char) : List Char := l.map Char.toLower

/-- Python `str.capitalize()` (first character uppercased, rest lowered). -/
def capitalizeL : List Char → List Char
  | [] => []
  | c :: cs => c.toUpper :: cs.map Char.toLower

/-- Python `str.strip()` (default whitespace strip on both ends). -/
def pyStrip (l : List Char) : List Char :=
  ((l.dropWhile isPySpace).reverse.dropWhile isPySpace).reverse

/-- Python `str.split(sep)` for a single-character separator: keeps empty
segments and returns `[""]` on the empty string. -/
def splitOnChar (sep : Char) : List Char → List (List Char)
  | [] => [[]]
  | c :: cs =>
    if c = sep then [] :: splitOnChar sep cs
    else
      match splitOnChar sep cs with
      | [] => [[c]]
      | s :: ss => (c :: s) :: ss

/-- Fuelled worker for `collapseWs`. -/
def collapseWsAux : Nat → List Char → List Char
  | 0, _ => []
  | _, [] => []
  | fuel+1, c :: cs =>
    if isPySpace c then ' ' :: collapseWsAux fuel (cs.dropWhile isPySpace)
    else c :: collapseWsAux fuel cs

/-- Python `re.sub(r"\s+", " ", l)`: each maximal whitespace run becomes a
single space. -/
def collapseWs (l : List Char) : List Char := collapseWsAux l.length l

/-- Maximal run of characters satisfying `p`, plus the remaining input. -/
def takeRun (p : Char → Bool) : List Char → List Char × List Char
  | [] => ([], [])
  | c :: cs =>
    if p c then
      let r := takeRun p cs
      (c :: r.1, r.2)
    else ([], c :: cs)

/-- Fuelled worker for `replaceSub`. -/
def replaceSubAux (pat rep : List Char) : Nat → List Char → List Char
  | 0, l => l
  | _, [] => []
  | fuel+1, c :: cs =>
    if !pat.isEmpty && startsWithL pat (c :: cs) then
      rep ++ replaceSubAux pat rep fuel ((c :: cs).drop pat.length)
    else
      c :: replaceSubAux pat rep fuel cs

/-- Python `str.replace(pat, rep)` (all occurrences, left to right). -/
def replaceSub (pat rep l : List Char) : List Char :=
  replaceSubAux pat rep l.length l

/-- First occurrence of `pat` in the input: `some (before, after)` such that
the input is `before ++ pat ++ after`, or `none`. -/
def findSub (pat : List Char) : List Char → Option (List Char × List Char)
  | [] => if pat.isEmpty then some ([], []) else none
  | c :: cs =>
    if startsWithL pat (c :: cs) then some ([], (c :: cs).drop pat.length)
    else
      match findSub pat cs with
      | some (pre, post) => some (c :: pre, post)
      | none => none

/-- Helpers lifted to `String`. -/
def lowerS (s : String) : String := ⟨lowerL s.data⟩

def containsSubS (hay needle : String) : Bool := containsSub hay.data needle.data

def pyStripS (s : String) : String := ⟨pyStrip s.data⟩

/-- Python `if x in acc` set-insert, modelled with first-seen order. -/
def pyAdd {α : Type} [DecidableEq α] (acc : List α) (x : α) : List α :=
  if x ∈ acc then acc else acc ++ [x]

/-- Python `list(set(l))`.  CPython iterates a `set` in an unspecified
(hash) order; this embedding fixes first-seen order.  No claim verified
here depends on the iteration order of a Python set. -/
def pyDedupFirst {α : Type} [DecidableEq α] (l : List α) : List α :=
  l.foldl pyAdd []

/-! ## Lexicographic string order (Python `str` comparison, code points) -/

/-- Code-point lexicographic `≤` on character lists, exactly Python's
`str` comparison for the strings involved. -/
def lexLe : List Char → List Char → Bool
  | [], _ => true
  | _ :: _, [] => false
  | a :: as, b :: bs =>
    Nat.blt a.toNat b.toNat || (Nat.beq a.toNat b.toNat && lexLe as bs)

/-- The order used by Python's `sorted` on the extracted price strings. -/
def strLe (a b : String) : Prop := lexLe a.data b.data = true

instance : DecidableRel strLe := fun a b => by unfold strLe; infer_instance

theorem lexLe_total : ∀ as bs : List Char, lexLe as bs = true ∨ lexLe bs as = true := by
  intro as
  induction as with
  | nil => intro bs; left; rfl
  | cons a as ih =>
    intro bs
    cases bs with
    | nil => right; rfl
    | cons b bs =>
      rcases Nat.lt_trichotomy a.toNat b.toNat with h | h | h
      · left; simp [lexLe, Nat.blt_eq, h]
      · rcases ih bs with h2 | h2
        · left; simp [lexLe, h, h2]
        · right; simp [lexLe, h.symm, h2]
      · right; simp [lexLe, Nat.blt_eq, h]

theorem lexLe_trans : ∀ as bs cs : List Char,
    lexLe as bs = true → lexLe bs cs = true → lexLe as cs = true := by
  intro as
  induction as with
  | nil => intro bs cs _ _; rfl
  | cons a as ih =>
    intro bs cs hab hbc
    cases bs with
    | nil => simp [lexLe] at hab
    | cons b bs =>
      cases cs with
      | nil => simp [lexLe] at hbc
      | cons c cs =>
        simp only [lexLe, Bool.or_eq_true, Bool.and_eq_true, Nat.blt_eq, Nat.beq_eq] at hab hbc ⊢
        rcases hab with hab | ⟨hab1, hab2⟩ <;> rcases hbc with hbc | ⟨hbc1, hbc2⟩
        · exact Or.inl (Nat.lt_trans hab hbc)
        · exact Or.inl (hbc1 ▸ hab)
        · exact Or.inl (hab1 ▸ hbc)
        · exact Or.inr ⟨hab1.trans hbc1, ih bs cs hab2 hbc2⟩

instance : IsTotal String strLe := ⟨fun a b => lexLe_total a.data b.data⟩

instance : IsTrans String strLe := ⟨fun a b c => lexLe_trans a.data b.data c.data⟩

/-! ## Regular-expression scanners (Python `re.findall` semantics)

A matcher step of type `M` maps the remaining input to the list of
possible rests, in the engine's backtracking priority order (greedy
first); depth-first sequencing of such steps enumerates alternatives in
exactly Python's backtracking order, so the head of the final list is the
match Python produces. -/

/-- Nondeterministic matcher step: input ↦ possible rests, priority order. -/
abbrev M := List Char → List (List Char)

/-- Match one character satisfying `p`. -/
def charAltM (p : Char → Bool) : M := fun l =>
  match l with
  | [] => []
  | c :: cs => if p c then [cs] else []

/-- Sequencing, preserving priority order (depth first). -/
def seqM (a b : M) : M := fun l => (a l).flatMap b

/-- Greedy `?`: try consuming first, then the empty alternative. -/
def optM (m : M) : M := fun l => m l ++ [l]

/-- Ordered alternation `a|b`. -/
def altM (a b : M) : M := fun l => a l ++ b l

/-- Literal string match. -/
def litM (s : List Char) : M := fun l =>
  if startsWithL s l then [l.drop s.length] else []

/-- Consume exactly `n` characters satisfying `p`. -/
def consumeN (p : Char → Bool) : Nat → List Char → Option (List Char)
  | 0, l => some l
  | _+1, [] => none
  | n+1, c :: cs => if p c then consumeN p n cs else none

/-- Greedy counted repetition `p{lo,hi}`: rests after consuming `hi` down
to `lo` characters. -/
def repRangeM (p : Char → Bool) (lo hi : Nat) : M := fun l =>
  (List.range (hi + 1 - lo)).filterMap (fun i => consumeN p (hi - i) l)

/-- Turn a priority-ordered matcher into a deterministic one returning the
match and the rest (the head of the priority list, as Python does). -/
def matcherOfM (m : M) (l : List Char) : Option (List Char × List Char) :=
  match (m l).head? with
  | some rest => some (l.take (l.length - rest.length), rest)
  | none => none

/-- Fuelled `re.findall` scan: try the matcher at every position, emit
non-overlapping matches left to right. -/
def scanAux (matcher : List Char → Option (List Char × List Char)) :
    Nat → List Char → List (List Char)
  | 0, _ => []
  | _, [] => []
  | fuel+1, c :: cs =>
    match matcher (c :: cs) with
    | some (m, rest) =>
      if m.isEmpty then scanAux matcher fuel cs
      else m :: scanAux matcher fuel rest
    | none => scanAux matcher fuel cs

def scanAll (matcher : List Char → Option (List Char × List Char))
    (l : List Char) : List (List Char) :=
  scanAux matcher l.length l

/-- Fuelled `re.findall` scan for patterns with a look-behind condition on
the previous character (`none` at the start of the input). -/
def scanPrevAux (cond : Option Char → Bool)
    (matcher : List Char → Option (List Char × List Char)) :
    Nat → Option Char → List Char → List (List Char)
  | 0, _, _ => []
  | _, _, [] => []
  | fuel+1, prev, c :: cs =>
    if cond prev then
      match matcher (c :: cs) with
      | some (m, rest) =>
        if m.isEmpty then scanPrevAux cond matcher fuel (some c) cs
        else m :: scanPrevAux cond matcher fuel (some (m.getLastD c)) rest
      | none => scanPrevAux cond matcher fuel (some c) cs
    else scanPrevAux cond matcher fuel (some c) cs

def scanPrev (cond : Option Char → Bool)
    (matcher : List Char → Option (List Char × List Char))
    (l : List Char) : List (List Char) :=
  scanPrevAux cond matcher l.length none l

/-! ## `utils.py` -/

/-- The list `SOCIAL_DOMAINS` from `utils.py`. -/
def SOCIAL_DOMAINS : List String :=
  ["linkedin.com", "twitter.com", "x.com", "facebook.com", "instagram.com", "youtube.com"]

/-- Embedding of `utils.clean_text`: collapse whitespace runs to single spaces, strip. -/
def clean_text (text : String) : String :=
  if text = "" then "" else ⟨pyStrip (collapseWs text.data)⟩

/-- Matcher for the email pattern `[a-zA-Z0-9._%+-]+@[a-zA-Z0-9.-]+\.[a-zA-Z]{2,}`
at the current position.  The local part must be the maximal run (an `@`
can only follow the full run since `@` is not a local character); the
domain part backtracks from the longest run to the last viable `.`
followed by at least two letters, exactly as the Python engine does. -/
def dotSplits : List Char → List (List Char × List Char)
  | [] => []
  | c :: cs =>
    (if c = '.' then [([], cs)] else []) ++ (dotSplits cs).map (fun p => (c :: p.1, p.2))

def emailTryDomain (rest0 : List Char) :
    List (List Char × List Char) → Option (List Char × List Char × List Char)
  | [] => none
  | (pre, post) :: more =>
    if pre.isEmpty then emailTryDomain rest0 more
    else
      let t := takeRun Char.isAlpha (post ++ rest0)
      if 2 ≤ t.1.length then some (pre, t.1, t.2)
      else emailTryDomain rest0 more

def emailMatchAt (l : List Char) : Option (List Char × List Char) :=
  let loc := takeRun isLocalC l
  if loc.1.isEmpty then none
  else
    match loc.2 with
    | '@' :: r2 =>
      let dom := takeRun isDomainC r2
      match emailTryDomain dom.2 (dotSplits dom.1).reverse with
      | some (pre, tld, rem) => some (loc.1 ++ '@' :: (pre ++ '.' :: tld), rem)
      | none => none
    | _ => none

/-- Embedding of `utils.extract_emails`: `list(set(re.findall(...)))`. -/
def extract_emails (text : String) : List String :=
  pyDedupFirst ((scanAll emailMatchAt text.data).map (fun m => (⟨m⟩ : String)))

/-- Separator class `[-.\s]` of the phone pattern. -/
def sepC (c : Char) : Bool := c = '-' || c = '.' || isPySpace c

/-- The phone pattern
`(?:\+\d{1,3}[-.\s]?)?\(?[0-9]{2,4}\)?[-.\s]?[0-9]{2,4}[-.\s]?[0-9]{4}`
as a priority-ordered matcher. -/
def phoneM : M :=
  seqM (optM (seqM (charAltM (fun c => c = '+'))
      (seqM (repRangeM Char.isDigit 1 3) (optM (charAltM sepC)))))
    (seqM (optM (charAltM (fun c => c = '(')))
      (seqM (repRangeM Char.isDigit 2 4)
        (seqM (optM (charAltM (fun c => c = ')')))
          (seqM (optM (charAltM sepC))
            (seqM (repRangeM Char.isDigit 2 4)
              (seqM (optM (charAltM sepC))
                (repRangeM Char.isDigit 4 4)))))))

/-- Embedding of `re.sub` removing everything but digits and `+` from a match. -/
def cleanPh (l : List Char) : List Char := l.filter (fun c => c.isDigit || c = '+')

/-- Embedding of the bare-numeral test (a full match of 1 to 4 digits). -/
def bareNumeral (l : List Char) : Bool :=
  decide (1 ≤ l.length) && decide (l.length ≤ 4) && l.all Char.isDigit

/-- One step of the dedup/filter loop of `utils.extract_phones`; the state
is the output list paired with the `seen` set of cleaned forms. -/
def phoneFold (acc : List String × List (List Char)) (m : List Char) :
    List String × List (List Char) :=
  let cleaned := cleanPh m
  if 8 ≤ cleaned.length ∧ cleaned ∉ acc.2 then
    if ¬ bareNumeral cleaned then (acc.1 ++ [(⟨pyStrip m⟩ : String)], acc.2 ++ [cleaned])
    else acc
  else acc

/-- Embedding of `utils.extract_phones`. -/
def extract_phones (text : String) : List String :=
  if text = "" then []
  else ((scanAll (matcherOfM phoneM) text.data).foldl phoneFold ([], [])).1

/-- Model of `urllib.parse.urlparse(url).netloc` for the URL forms
exercised here: the authority is the text between the first `://` and the
next `/`, `?` or `#`; a URL with no `://` has an empty netloc. -/
def netlocOf (url : String) : String :=
  match findSub [':', '/', '/'] url.data with
  | some (_, post) => ⟨post.takeWhile (fun c => !(c = '/' || c = '?' || c = '#'))⟩
  | none => ""

/-- Model of `urllib.parse.urljoin` for the URL forms exercised here:
absolute links pass through, `//`-links adopt the base scheme, `/`-links
resolve against the authority, other links replace the last path
segment. -/
def urljoin (base link : String) : String :=
  if link = "" then base
  else if containsSub link.data [':', '/', '/'] then link
  else
    match findSub [':', '/', '/'] base.data with
    | none => link
    | some (scheme, afterScheme) =>
      let host := afterScheme.takeWhile (fun c => !(c = '/' || c = '?' || c = '#'))
      let path := afterScheme.drop host.length
      if startsWithL ['/', '/'] link.data then ⟨scheme ++ [':'] ++ link.data⟩
      else if startsWithL ['/'] link.data then
        ⟨scheme ++ [':', '/', '/'] ++ host ++ link.data⟩
      else
        let dir := let r := path.reverse.dropWhile (fun c => c ≠ '/')
                   if r.isEmpty then ['/'] else r.reverse
        ⟨scheme ++ [':', '/', '/'] ++ host ++ dir ++ link.data⟩

/-- Embedding of `utils.get_internal_links`: resolve each link against the base URL and
keep (as a set) those whose authority equals the base authority. -/
def get_internal_links (base_url : String) (links : List String) : List String :=
  pyDedupFirst ((links.map (urljoin base_url)).filter
    (fun full => netlocOf full = netlocOf base_url))

/-- Embedding of `utils.is_social_link`. -/
def is_social_link (url : String) : Bool :=
  SOCIAL_DOMAINS.any (fun d => containsSubS (lowerS url) d)

/-! ## `parser.py` and the document model

`parse_html` / BeautifulSoup is an external collaborator (spec §4.5); the
embedding represents a parsed document by the queries the core performs
on it: title string, first `h1` text, anchor `href`s in document order,
the visible text produced by `get_visible_text`, and the `h1/h2/h3`
heading texts in document order. -/

structure Doc where
  titleStr : Option String
  h1text : Option String
  links : List String
  visibleText : String
  headings : List String
deriving Repr, DecidableEq

/-! ## `extractor.py` -/

/-- The list `PRIORITY_KEYWORDS` from `extractor.py` (verbatim, duplicates kept). -/
def PRIORITY_KEYWORDS : List String :=
  ["about", "company", "products", "solutions",
   "industries", "pricing", "contact", "careers",
   "innovations", "about us", "blog", "news",
   "features", "services", "why", "use cases",
   "updates", "resources", "case studies",
   "contact", "contact us", "get in touch", "support",
   "help", "faq", "integrations", "partners",
   "jobs", "job", "hiring", "work with us", "join us",
   "team", "our team", "leadership"]

structure Identity where
  company_name : String
  website : String
  tagline : String
deriving Repr, DecidableEq

/-- Embedding of `extractor.extract_identity`.  The title is
`soup.title.string if soup.title else ""`; a missing title or a title
element without a string both behave as the empty string, so the model
carries `Option String` and tests Python truthiness of its default. -/
def extract_identity (soup : Doc) (url : String) : Identity :=
  let title := soup.titleStr.getD ""
  let domain := (splitOnChar '.' (replaceSub "www.".data [] (netlocOf url).data)).headD []
  let company_name :=
    if title ≠ "" then
      let parts := ((splitOnChar '|'
        (replaceSub " - ".data "-".data
          (replaceSub " | ".data "|".data title.data))).map pyStrip)
      if 1 < parts.length then parts.getLastD []
      else
        let parts2 := splitOnChar '-' title.data
        if 1 < parts2.length then pyStrip (parts2.getLastD [])
        else pyStrip title.data
    else capitalizeL domain
  { company_name := ⟨company_name⟩
    website := url
    tagline := (soup.h1text.map pyStripS).getD "" }

/-- Embedding of `extractor.extract_links`. -/
def extract_links (soup : Doc) : List String := soup.links

/-- Embedding of `extractor.filter_priority_pages`: keep links whose lowercase form
contains a priority keyword, as a set. -/
def filter_priority_pages (links : List String) : List String :=
  pyDedupFirst (links.filter
    (fun link => PRIORITY_KEYWORDS.any (fun k => containsSub (lowerL link.data) k.data)))

structure Contacts where
  emails : List String
  phones : List String
deriving Repr, DecidableEq

/-- Embedding of `extractor.extract_contacts`. -/
def extract_contacts (text : String) : Contacts :=
  { emails := extract_emails text, phones := extract_phones text }

/-- The collapsed rejoin of the first five `.`-separated segments, before
the length cut of `extract_company_description`. -/
def descBase (text : String) : List Char :=
  collapseWs (pyStrip ((List.intercalate ". ".data) ((splitOnChar '.' text.data).take 5)))

/-- Embedding of `extractor.extract_company_description`. -/
def extract_company_description (text : String) : String :=
  if text = "" then ""
  else
    let description := descBase text
    if 500 < description.length then ⟨description.take 500 ++ "...".data⟩
    else ⟨description⟩

/-- The service/product keyword list from `extract_services_and_products`. -/
def SERVICE_KEYWORDS : List String :=
  ["service", "product", "solution", "tool", "platform",
   "feature", "offering", "plan", "package", "subscription",
   "software", "application", "api", "integration", "plugin"]

/-- Embedding of `extractor.extract_services_and_products`. -/
def extract_services_and_products (text : String) : List String :=
  if text = "" then []
  else
    let lines := splitOnChar '\n' text.data
    let services := (lines.take 50).filterMap (fun line =>
      let ll := lowerL (pyStrip line)
      if ll.isEmpty || ll.length < 10 then none
      else if SERVICE_KEYWORDS.any (fun k => containsSub ll k.data)
              && decide (15 < line.length) && decide (line.length < 200)
      then some ((⟨pyStrip line⟩ : String))
      else none)
    (pyDedupFirst services).take 10

structure PricingInfo where
  tiers : List String
  prices : List String
  trial_available : Bool
  free_option : Bool
deriving Repr, DecidableEq

/-- The tier keyword list from `extract_pricing`. -/
def TIER_KEYWORDS : List String :=
  ["starter", "basic", "pro", "premium", "enterprise", "business", "professional"]

/-- Matcher for price rule (a) `\$[\d,]+(?:\.\d{2})?(?:/(?:month|year))?`.
No backtracking is needed: both trailing groups are optional and start
with characters outside `[\d,]`. -/
def matchDotDD : List Char → List Char × List Char
  | '.' :: a :: b :: rest =>
    if a.isDigit && b.isDigit then (['.', a, b], rest)
    else ([], '.' :: a :: b :: rest)
  | l => ([], l)

def matchMY (l : List Char) : List Char × List Char :=
  if startsWithL "/month".data l then (l.take 6, l.drop 6)
  else if startsWithL "/year".data l then (l.take 5, l.drop 5)
  else ([], l)

def matchA : List Char → Option (List Char × List Char)
  | '$' :: r1 =>
    let run := takeRun (fun c => c.isDigit || c = ',') r1
    if run.1.isEmpty then none
    else
      let dd := matchDotDD run.2
      let my := matchMY dd.2
      some ('$' :: (run.1 ++ dd.1 ++ my.1), my.2)
  | _ => none

/-- The group `(?:\.\d{2})` as a matcher step. -/
def dotDDM : M := seqM (charAltM (fun c => c = '.')) (repRangeM Char.isDigit 2 2)

/-- Price rule (b) `(?<![a-zA-Z])\d{2,5}(?:\.\d{2})?/(?:month|year)`:
matcher part (the look-behind is handled by the scanner). -/
def patBM : M :=
  seqM (repRangeM Char.isDigit 2 5)
    (seqM (optM dotDDM) (altM (litM "/month".data) (litM "/year".data)))

def condB : Option Char → Bool
  | none => true
  | some p => !p.isAlpha

/-- Trailing `\b(?![\d/])` of price rule (c): the next character must be
absent, or neither a word character nor `/`. -/
def lookNoWordSlashM : M := fun l =>
  match l with
  | [] => [[]]
  | c :: _ => if isWordC c || c = '/' then [] else [l]

/-- Price rule (c) `(?<!\$)\b\d{2,5}(?:\.\d{2})?\b(?![\d/])`: matcher part. -/
def patCM : M :=
  seqM (repRangeM Char.isDigit 2 5) (seqM (optM dotDDM) lookNoWordSlashM)

def condC : Option Char → Bool
  | none => true
  | some p => !isWordC p && p ≠ '$'

/-- Embedding of `extractor.extract_pricing`.  Python returns the empty dict `{}` on
empty input, modelled as `none`. -/
def extract_pricing (text : String) : Option PricingInfo :=
  if text = "" then none
  else
    let text_lower := lowerL text.data
    let free_option := containsSub text_lower "free".data
    let trial_available :=
      containsSub text_lower "trial".data || containsSub text_lower "free trial".data
    let tiers := (TIER_KEYWORDS.filter (fun t => containsSub text_lower t.data)).map
      (fun t => (⟨capitalizeL t.data⟩ : String))
    let prices_with_dollar := scanAll matchA text.data
    let prices_no_dollar := (scanPrev condB (matcherOfM patBM) text.data).map
      (fun p => if startsWithL "$".data p then p else '$' :: p)
    let prices_standalone := (scanPrev condC (matcherOfM patCM) text.data).filterMap
      (fun p => if (¬ p.isEmpty ∧ p.all Char.isDigit) ∨ p.contains '.'
                then some ('$' :: p) else none)
    let all_prices : List String :=
      pyDedupFirst ((prices_with_dollar ++ prices_no_dollar ++ prices_standalone).map
        (fun p => (⟨p⟩ : String)))
    some { tiers := pyDedupFirst tiers
           prices := (List.insertionSort strLe all_prices).take 5
           trial_available := trial_available
           free_option := free_option }

/-- The customer keyword list from `extract_target_customers` (verbatim:
`"enterprise"` appears twice). -/
def CUSTOMER_KEYWORDS : List String :=
  ["enterprise", "startup", "sme", "small business", "mid-market",
   "enterprise", "healthcare", "finance", "retail", "education",
   "manufacturing", "technology", "agency", "team", "business",
   "professional", "developer", "freelancer", "consultant"]

/-- Embedding of `extractor.extract_target_customers`. -/
def extract_target_customers (text : String) : List String :=
  if text = "" then []
  else
    let text_lower := lowerL text.data
    pyDedupFirst ((CUSTOMER_KEYWORDS.filter (fun k => containsSub text_lower k.data)).map
      (fun k => (⟨capitalizeL k.data⟩ : String)))

structure BusinessInfo where
  services : List String
  pricing : Option PricingInfo
  target_customers : List String
deriving Repr, DecidableEq

/-- Embedding of `extractor.extract_business_info`. -/
def extract_business_info (text : String) : BusinessInfo :=
  { services := extract_services_and_products text
    pricing := extract_pricing text
    target_customers := extract_target_customers text }

/-- The platform bucket a link is assigned to by the `if/elif` chain of
`categorize_social_links`, or `none` if no branch fires. -/
def bucketOf (link : String) : Option String :=
  let l := lowerS link
  if containsSubS l "linkedin" then some "linkedin"
  else if containsSubS l "twitter" || containsSubS l "x.com" then some "twitter"
  else if containsSubS l "facebook" then some "facebook"
  else if containsSubS l "instagram" then some "instagram"
  else if containsSubS l "youtube" then some "youtube"
  else none

/-- Python `dict` assignment `m[k] = v`: replace in place (keeping the
key's insertion position), else append. -/
def dictSet : List (String × String) → String → String → List (String × String)
  | [], k, v => [(k, v)]
  | p :: ps, k, v => if p.1 = k then (k, v) :: ps else p :: dictSet ps k v

/-- Python `dict` lookup. -/
def dictGet (m : List (String × String)) (k : String) : Option String :=
  (m.find? (fun p => p.1 = k)).map (fun p => p.2)

/-- Embedding of `extractor.categorize_social_links` over an input list (the source
passes a Python `set`, whose iteration order is unspecified; the claims
quantify over the input list). -/
def categorize_social_links (links : List String) : List (String × String) :=
  links.foldl (fun socials link =>
    match bucketOf link with
    | some p => dictSet socials p link
    | none => socials) []

/-! ## `runner.py` -/

/-- The constant `MAX_PAGES` from `runner.py`. -/
def MAX_PAGES : Nat := 8

structure PageDetails where
  text_preview : String
  title : String
  headings : List String
deriving Repr, DecidableEq

structure KeyPages where
  visited : List String
  page_details : List (String × PageDetails)
deriving Repr, DecidableEq

/-- The result dictionary assembled by `runner.run`.  The `metadata`
timestamp (a wall-clock capture instant) is outside the shallow
embedding; `pages_crawled` and `errors` are the remaining metadata
fields.  Fields that the fatal path leaves absent are `Option`s. -/
structure RunResult where
  pages_crawled : Nat
  errors : List String
  identity : Option Identity
  contacts : Option Contacts
  social_links : Option (List (String × String))
  description : Option String
  business_info : Option BusinessInfo
  key_pages : Option KeyPages
deriving Repr, DecidableEq

/-- The fetch transport contract (spec §4.5):
`fetch(url) → (rawDocumentText, error|null)`. -/
abbrev Fetch := String → Option String × Option String

/-- Python truthiness of an optional string (`None` and `""` are falsy). -/
def pyTruthyStr : Option String → Bool
  | none => false
  | some s => s ≠ ""

/-- Python `str(error)` as appended to `metadata.errors`. -/
def strOfOpt : Option String → String
  | none => "None"
  | some s => s

/-- The homepage-fetch failure condition of `runner.run`:
`if error or not html`. -/
def homeFetchFails (fetch : Fetch) (url : String) : Bool :=
  pyTruthyStr (fetch url).2 || !(pyTruthyStr (fetch url).1)

/-- Accumulator of the priority-page loop in `runner.run`. -/
structure LoopState where
  all_text : String
  social_links : List String
  visited : List String
  page_contents : List (String × PageDetails)
deriving Repr, DecidableEq

/-- One iteration of the priority-page loop: a falsy page source skips
the page silently, a truthy one accumulates text, visited, details and
social links. -/
def crawlStep (fetch : Fetch) (parse : String → Doc) (st : LoopState)
    (page_url : String) : LoopState :=
  let fr := fetch page_url
  if !(pyTruthyStr fr.1) then st
  else
    let page_soup := parse (fr.1.getD "")
    let page_text := page_soup.visibleText
    { all_text := st.all_text ++ " " ++ page_text
      visited := st.visited ++ [page_url]
      page_contents := st.page_contents ++
        [(page_url,
          { text_preview := ⟨page_text.data.take 500⟩
            title := page_soup.titleStr.getD ""
            headings := (page_soup.headings.take 5).map pyStripS })]
      social_links := (page_soup.links.filter is_social_link).foldl pyAdd st.social_links }

/-- Embedding of `runner.run`, parametrised by the fetch transport and the document
parser (external collaborators). -/
def run (fetch : Fetch) (parse : String → Doc) (url : String) : RunResult :=
  let fr := fetch url
  if pyTruthyStr fr.2 || !(pyTruthyStr fr.1) then
    { pages_crawled := 0, errors := [strOfOpt fr.2], identity := none, contacts := none
      social_links := none, description := none, business_info := none, key_pages := none }
  else
    let soup := parse (fr.1.getD "")
    let homepage_text := soup.visibleText
    let identity := extract_identity soup url
    let internal_links := get_internal_links url (extract_links soup)
    let priority_pages := filter_priority_pages internal_links
    let final := (priority_pages.take MAX_PAGES).foldl (crawlStep fetch parse)
      { all_text := homepage_text, social_links := [], visited := [], page_contents := [] }
    { pages_crawled := 1 + final.visited.length
      errors := []
      identity := some identity
      contacts := some (extract_contacts final.all_text)
      social_links := some (categorize_social_links final.social_links)
      description := some (extract_company_description final.all_text)
      business_info := some (extract_business_info final.all_text)
      key_pages := some { visited := final.visited, page_details := final.page_contents } }

/-! ## Helper lemmas -/

/-- On a falsy homepage fetch, `run` returns the error-only record. -/
theorem run_fatal_eq (fetch : Fetch) (parse : String → Doc) (url : String)
    (h : homeFetchFails fetch url = true) :
    run fetch parse url =
      { pages_crawled := 0, errors := [strOfOpt (fetch url).2], identity := none,
        contacts := none, social_links := none, description := none,
        business_info := none, key_pages := none } := by
  unfold homeFetchFails at h
  simp only [run]
  rw [h]
  simp

/-- The homepage document of a successful run. -/
def okSoup (fetch : Fetch) (parse : String → Doc) (url : String) : Doc :=
  parse ((fetch url).1.getD "")

/-- The loop state after the priority-page loop of a successful run. -/
def okFinal (fetch : Fetch) (parse : String → Doc) (url : String) : LoopState :=
  ((filter_priority_pages
      (get_internal_links url (extract_links (okSoup fetch parse url)))).take MAX_PAGES).foldl
    (crawlStep fetch parse)
    { all_text := (okSoup fetch parse url).visibleText
      social_links := [], visited := [], page_contents := [] }

/-- On a truthy homepage fetch, `run` returns the assembled record. -/
theorem run_ok_eq (fetch : Fetch) (parse : String → Doc) (url : String)
    (h : homeFetchFails fetch url = false) :
    run fetch parse url =
      { pages_crawled := 1 + (okFinal fetch parse url).visited.length
        errors := []
        identity := some (extract_identity (okSoup fetch parse url) url)
        contacts := some (extract_contacts (okFinal fetch parse url).all_text)
        social_links := some (categorize_social_links (okFinal fetch parse url).social_links)
        description := some (extract_company_description (okFinal fetch parse url).all_text)
        business_info := some (extract_business_info (okFinal fetch parse url).all_text)
        key_pages := some { visited := (okFinal fetch parse url).visited
                            page_details := (okFinal fetch parse url).page_contents } } := by
  unfold homeFetchFails at h
  simp only [run, okFinal, okSoup]
  rw [h]
  simp

/-- The priority-page loop appends to `visited` exactly the pages whose
fetch returned a truthy page source, in order. -/
theorem crawlLoop_visited (fetch : Fetch) (parse : String → Doc) :
    ∀ (L : List String) (st : LoopState),
      (L.foldl (crawlStep fetch parse) st).visited
        = st.visited ++ L.filter (fun u => pyTruthyStr (fetch u).1) := by
  intro L
  induction L with
  | nil => intro st; simp
  | cons u L ih =>
    intro st
    simp only [List.foldl_cons, List.filter_cons]
    cases hc : pyTruthyStr (fetch u).1 with
    | false =>
      rw [ih]
      simp only [crawlStep, hc]
      simp
    | true =>
      rw [ih]
      simp only [crawlStep, hc]
      simp

/-- Claim C1: for every input URL, if the homepage fetch fails (transport
error) or returns an empty document, `run(url)` returns a result whose
`metadata.errors` is non-empty and which carries no identity, contacts,
description, business info, social links or key pages; and this is the
sole fatal path: whenever the homepage fetch is truthy, all those fields
are present and `metadata.errors` is empty. -/
theorem C1_home_fetch_sole_fatal_path (fetch : Fetch) (parse : String → Doc) (url : String) :
    (homeFetchFails fetch url = true →
      (run fetch parse url).errors ≠ [] ∧
      (run fetch parse url).identity = none ∧
      (run fetch parse url).contacts = none ∧
      (run fetch parse url).description = none ∧
      (run fetch parse url).business_info = none ∧
      (run fetch parse url).social_links = none ∧
      (run fetch parse url).key_pages = none) ∧
    (homeFetchFails fetch url = false →
      (run fetch parse url).errors = [] ∧
      (run fetch parse url).identity.isSome = true ∧
      (run fetch parse url).contacts.isSome = true ∧
      (run fetch parse url).description.isSome = true ∧
      (run fetch parse url).business_info.isSome = true ∧
      (run fetch parse url).social_links.isSome = true ∧
      (run fetch parse url).key_pages.isSome = true) := by
  constructor
  · intro h
    rw [run_fatal_eq fetch parse url h]
    simp
  · intro h
    rw [run_ok_eq fetch parse url h]
    simp

/-- Claim C2: whenever the homepage fetch succeeds, the result satisfies
`pages_crawled = 1 + |visited|`, at most `MAX_PAGES = 8` priority pages
are attempted (so `visited` has length at most 8), every visited entry
had a truthy (non-empty) page fetch, failed priority fetches are skipped
silently, and `metadata.errors` stays empty. -/
theorem C2_page_budget_and_silent_skips (fetch : Fetch) (parse : String → Doc) (url : String)
    (h : homeFetchFails fetch url = false) :
    ∃ kp : KeyPages, (run fetch parse url).key_pages = some kp ∧
      (run fetch parse url).pages_crawled = 1 + kp.visited.length ∧
      kp.visited.length ≤ 8 ∧
      (∀ u ∈ kp.visited, pyTruthyStr (fetch u).1 = true) ∧
      (run fetch parse url).errors = [] := by
  rw [run_ok_eq fetch parse url h]
  refine ⟨{ visited := (okFinal fetch parse url).visited
            page_details := (okFinal fetch parse url).page_contents },
          rfl, rfl, ?_, ?_, rfl⟩
  · unfold okFinal
    rw [crawlLoop_visited]
    simp only [List.nil_append]
    calc (List.filter (fun u => pyTruthyStr (fetch u).1) _).length
        ≤ (((filter_priority_pages (get_internal_links url
            (extract_links (okSoup fetch parse url)))).take MAX_PAGES)).length :=
          List.length_filter_le _ _
      _ ≤ MAX_PAGES := List.length_take_le _ _
  · intro u hu
    unfold okFinal at hu
    rw [crawlLoop_visited] at hu
    simp only [List.nil_append, List.mem_filter] at hu
    exact hu.2

/-- A transport that always fails, and a trivial parser. -/
def failFetch : Fetch := fun _ => (none, some "net::ERR_NAME_NOT_RESOLVED")

def trivialParse : String → Doc := fun _ =>
  { titleStr := none, h1text := none, links := [], visibleText := "", headings := [] }

theorem C1_witness :
    (run failFetch trivialParse "https://nope.invalid").errors ≠ [] ∧
    (run failFetch trivialParse "https://nope.invalid").identity = none ∧
    (run failFetch trivialParse "https://nope.invalid").key_pages = none := by
  have h := C1_home_fetch_sole_fatal_path failFetch trivialParse "https://nope.invalid"
  exact ⟨(h.1 (by decide)).1, (h.1 (by decide)).2.1, (h.1 (by decide)).2.2.2.2.2.2⟩

/-- The spec's end-to-end scenario: a successful homepage fetch exposing
three priority links, of which one fails to fetch. -/
def sampleFetch : Fetch := fun u =>
  if u = "https://e.com" then (some "HOME", none)
  else if u = "https://e.com/about" then (some "ABOUT", none)
  else if u = "https://e.com/pricing" then (none, some "timeout")
  else if u = "https://e.com/contact" then (some "CONTACT", none)
  else (none, some "unreachable")

def sampleParse : String → Doc := fun h =>
  if h = "HOME" then
    { titleStr := some "E | Corp", h1text := some "Hello"
      links := ["/about", "/pricing", "/contact"]
      visibleText := "Home text.", headings := ["Hello"] }
  else
    { titleStr := some "Sub", h1text := none, links := []
      visibleText := "Sub text.", headings := [] }

theorem C2_witness :
    ∃ kp : KeyPages,
      (run sampleFetch sampleParse "https://e.com").key_pages = some kp ∧
      (run sampleFetch sampleParse "https://e.com").pages_crawled = 1 + kp.visited.length ∧
      kp.visited.length ≤ 8 ∧
      (∀ u ∈ kp.visited, pyTruthyStr (sampleFetch u).1 = true) ∧
      (run sampleFetch sampleParse "https://e.com").errors = [] :=
  C2_page_budget_and_silent_skips sampleFetch sampleParse "https://e.com" (by decide)

theorem pyAdd_mem {α : Type} [DecidableEq α] {acc : List α} {x y : α}
    (h : y ∈ pyAdd acc x) : y ∈ acc ∨ y = x := by
  unfold pyAdd at h
  split at h
  · exact Or.inl h
  · rcases List.mem_append.mp h with h | h
    · exact Or.inl h
    · exact Or.inr (List.mem_singleton.mp h)

theorem pyDedupFirst_aux {α : Type} [DecidableEq α] :
    ∀ (l acc : List α) (x : α), x ∈ l.foldl pyAdd acc → x ∈ acc ∨ x ∈ l := by
  intro l
  induction l with
  | nil => intro acc x h; exact Or.inl h
  | cons a l ih =>
    intro acc x h
    simp only [List.foldl_cons] at h
    rcases ih (pyAdd acc a) x h with h' | h'
    · rcases pyAdd_mem h' with h'' | h''
      · exact Or.inl h''
      · exact Or.inr (by simp [h''])
    · exact Or.inr (List.mem_cons_of_mem _ h')

theorem pyDedupFirst_subset {α : Type} [DecidableEq α] {l : List α} {x : α}
    (h : x ∈ pyDedupFirst l) : x ∈ l := by
  rcases pyDedupFirst_aux l [] x h with h' | h'
  · simp at h'
  · exact h'

/-- Every match emitted by the scanner is produced by the matcher. -/
theorem scanAux_sound (matcher : List Char → Option (List Char × List Char)) :
    ∀ (fuel : Nat) (l m : List Char), m ∈ scanAux matcher fuel l →
      ∃ l0 r, matcher l0 = some (m, r) := by
  intro fuel
  induction fuel with
  | zero => intro l m h; simp [scanAux] at h
  | succ fuel ih =>
    intro l m h
    cases l with
    | nil => simp [scanAux] at h
    | cons c cs =>
      simp only [scanAux] at h
      cases hm : matcher (c :: cs) with
      | none => rw [hm] at h; exact ih _ _ h
      | some p =>
        obtain ⟨m0, rest⟩ := p
        rw [hm] at h
        simp only at h
        split at h
        · exact ih _ _ h
        · rcases List.mem_cons.mp h with rfl | h'
          · exact ⟨c :: cs, rest, hm⟩
          · exact ih _ _ h'

theorem scanAll_sound (matcher : List Char → Option (List Char × List Char))
    {l m : List Char} (h : m ∈ scanAll matcher l) :
    ∃ l0 r, matcher l0 = some (m, r) :=
  scanAux_sound matcher l.length l m h

/-- Pattern (a) matches always start with `$`. -/
theorem matchA_dollar : ∀ (l m r : List Char), matchA l = some (m, r) → ∃ t, m = '$' :: t := by
  intro l m r h
  unfold matchA at h
  split at h
  · dsimp only at h
    split at h
    · exact absurd h (by simp)
    · simp only [Option.some.injEq, Prod.mk.injEq] at h
      exact ⟨_, h.1.symm⟩
  · exact absurd h (by simp)

theorem startsWith_dollar_cons {l : List Char} (h : startsWithL "$".data l = true) :
    ∃ t, l = '$' :: t := by
  cases l with
  | nil => simp [startsWithL] at h
  | cons c cs =>
    simp only [startsWithL, Bool.and_eq_true, decide_eq_true_eq] at h
    exact ⟨cs, by rw [h.1]⟩

/-- Claim C3: `extract_pricing` returns `prices` as a lexicographically
(string-order) sorted list of at most five `$`-normalised tokens, and on
the spec's example text it reports the Starter and Pro tiers, a free
option, an available trial, and both `$29/month` and `$99/month`. -/
theorem C3_pricing_sorted_capped_normalized :
    (∀ (t : String) (info : PricingInfo), extract_pricing t = some info →
      List.Sorted strLe info.prices ∧ info.prices.length ≤ 5 ∧
      ∀ p ∈ info.prices, ∃ tl, p.data = '$' :: tl) ∧
    (extract_pricing "Starter plan $29/month, Pro plan $99/month, free trial available" =
      some { tiers := ["Starter", "Pro"], prices := ["$29/month", "$99/month"]
             trial_available := true, free_option := true } ∧
     "$29/month" ∈ (["$29/month", "$99/month"] : List String) ∧
     "$99/month" ∈ (["$29/month", "$99/month"] : List String)) := by
  constructor
  · intro t info h
    unfold extract_pricing at h
    split at h
    · exact absurd h (by simp)
    · simp only [Option.some.injEq] at h
      subst h
      refine ⟨?_, ?_, ?_⟩
      · exact List.Pairwise.sublist (List.take_sublist _ _)
          (List.sorted_insertionSort strLe _)
      · exact List.length_take_le _ _
      · intro p hp
        have hp2 : p ∈ List.insertionSort strLe _ :=
          (List.take_sublist _ _).subset hp
        have hp3 := pyDedupFirst_subset ((List.mem_insertionSort strLe).mp hp2)
        rcases List.mem_map.mp hp3 with ⟨chars, hchars, rfl⟩
        rcases List.mem_append.mp hchars with hmem | hC
        · rcases List.mem_append.mp hmem with hA | hB
          · rcases scanAll_sound matchA hA with ⟨l0, r, hm⟩
            rcases matchA_dollar l0 chars r hm with ⟨tl, rfl⟩
            exact ⟨tl, rfl⟩
          · rcases List.mem_map.mp hB with ⟨p0, _, rfl⟩
            split
            · rename_i hd
              rcases startsWith_dollar_cons hd with ⟨tl, htl⟩
              exact ⟨tl, htl⟩
            · exact ⟨p0, rfl⟩
        · rcases List.mem_filterMap.mp hC with ⟨p0, _, hsome⟩
          split at hsome
          · simp only [Option.some.injEq] at hsome
            exact ⟨p0, hsome.symm⟩
          · exact absurd hsome (by simp)
  · exact ⟨by decide, by decide, by decide⟩

theorem C3_witness :
    List.Sorted strLe (["$29/month", "$99/month"] : List String) ∧
    (["$29/month", "$99/month"] : List String).length ≤ 5 ∧
    ∃ tl, ("$29/month" : String).data = '$' :: tl := by
  have h := C3_pricing_sorted_capped_normalized.1
    "Starter plan $29/month, Pro plan $99/month, free trial available"
    { tiers := ["Starter", "Pro"], prices := ["$29/month", "$99/month"]
      trial_available := true, free_option := true }
    (by decide)
  exact ⟨h.1, h.2.1, h.2.2 "$29/month" (by decide)⟩

/-- Counterexample to claim C4: on a 600-character input without any `.`,
the returned description is 503 characters long, exceeding the claimed
500-character bound (the code appends the three-character ellipsis after
cutting at 500). -/
theorem C4_counterexample :
    500 < (extract_company_description (⟨List.replicate 600 'a'⟩ : String)).length := by
  decide

/-- Claim C4 (amended): `extract_company_description` returns the first 5
`.`-separated segments rejoined with `". "`, stripped and with whitespace
runs collapsed (`descBase`); when that string exceeds 500 characters the
result is its first 500 characters followed by the ellipsis marker, for
503 characters total; otherwise it is the string unchanged, with no
ellipsis appended. -/
theorem C4_description_truncation_amended (t : String) :
    (extract_company_description t).length ≤ 503 ∧
    (500 < (descBase t).length →
      extract_company_description t = (⟨(descBase t).take 500 ++ "...".data⟩ : String) ∧
      (extract_company_description t).length = 503) ∧
    ((descBase t).length ≤ 500 →
      extract_company_description t = (⟨descBase t⟩ : String)) := by
  have hlen : ∀ l : List Char, (String.mk l).length = l.length := fun _ => rfl
  have h3 : ("...".data).length = 3 := rfl
  by_cases ht : t = ""
  · subst ht
    refine ⟨by decide, fun h => absurd h (by decide), fun _ => by decide⟩
  · simp only [extract_company_description, if_neg ht]
    by_cases h500 : 500 < (descBase t).length
    · rw [if_pos h500]
      refine ⟨?_, fun _ => ⟨rfl, ?_⟩, fun habs => by omega⟩
      · rw [hlen, List.length_append, List.length_take, h3]; omega
      · rw [hlen, List.length_append, List.length_take, h3]; omega
    · rw [if_neg h500]
      refine ⟨?_, fun habs => absurd habs h500, fun _ => rfl⟩
      rw [hlen]; omega

theorem C4_witness :
    extract_company_description "One. Two. Three. Four. Five. Six. Seven." =
      (⟨descBase "One. Two. Three. Four. Five. Six. Seven."⟩ : String) ∧
    extract_company_description "One. Two. Three. Four. Five. Six. Seven." =
      "One. Two. Three. Four. Five" :=
  ⟨(C4_description_truncation_amended "One. Two. Three. Four. Five. Six. Seven.").2.2
    (by decide), by decide⟩

/-- Counterexample to claim C5: a present title whose last pipe-delimited
segment is blank makes `company_name` empty (the claim says it is never
empty). -/
theorem C5_counterexample :
    (extract_identity
      { titleStr := some "x | ", h1text := none, links := [], visibleText := "", headings := [] }
      "https://acme.com").company_name = "" := by
  decide

/-- Claim C5 (amended): the `website` field always echoes the input URL
verbatim; `company_name` can be empty for some titles (for example when
the last delimited segment is blank), and in the no-title fallback it is
the capitalised first host label, non-empty whenever that label is. -/
theorem C5_identity_website_amended (soup : Doc) (url : String) :
    (extract_identity soup url).website = url ∧
    (soup.titleStr.getD "" = "" →
      (splitOnChar '.' (replaceSub "www.".data [] (netlocOf url).data)).headD [] ≠ [] →
      (extract_identity soup url).company_name ≠ "") := by
  constructor
  · rfl
  · intro htitle hdom
    simp only [extract_identity, htitle]
    rw [if_neg (by simp)]
    cases hd : (splitOnChar '.' (replaceSub "www.".data [] (netlocOf url).data)).headD [] with
    | nil => exact absurd hd hdom
    | cons c cs =>
      intro heq
      rw [String.ext_iff] at heq
      simp [capitalizeL] at heq

theorem C5_witness :
    (extract_identity
      { titleStr := none, h1text := none, links := [], visibleText := "", headings := [] }
      "https://www.example.com").website = "https://www.example.com" ∧
    (extract_identity
      { titleStr := none, h1text := none, links := [], visibleText := "", headings := [] }
      "https://www.example.com").company_name ≠ "" :=
  ⟨(C5_identity_website_amended _ _).1,
   (C5_identity_website_amended _ _).2 (by decide) (by decide)⟩

theorem startsWithL_mem :
    ∀ (pat l : List Char), startsWithL pat l = true → ∀ x ∈ pat, x ∈ l := by
  intro pat
  induction pat with
  | nil => intro l _ x hx; simp at hx
  | cons a as ih =>
    intro l h x hx
    cases l with
    | nil => simp [startsWithL] at h
    | cons b bs =>
      simp only [startsWithL, Bool.and_eq_true, decide_eq_true_eq] at h
      rcases List.mem_cons.mp hx with rfl | hx'
      · exact h.1 ▸ List.mem_cons_self _ _
      · exact List.mem_cons_of_mem _ (ih bs h.2 x hx')

theorem replaceSubAux_id {pat rep : List Char} {c : Char} (hc : c ∈ pat) :
    ∀ (fuel : Nat) (l : List Char), c ∉ l → replaceSubAux pat rep fuel l = l := by
  intro fuel
  induction fuel with
  | zero => intro l _; cases l <;> rfl
  | succ fuel ih =>
    intro l hl
    cases l with
    | nil => rfl
    | cons a as =>
      have hsw : startsWithL pat (a :: as) = false := by
        cases hsw' : startsWithL pat (a :: as) with
        | false => rfl
        | true => exact absurd (startsWithL_mem pat (a :: as) hsw' c hc) hl
      simp only [replaceSubAux, hsw, Bool.and_false, Bool.false_eq_true, if_false]
      rw [ih as (fun h => hl (List.mem_cons_of_mem _ h))]

theorem replaceSub_id {pat rep : List Char} {c : Char} (hc : c ∈ pat)
    {l : List Char} (hl : c ∉ l) : replaceSub pat rep l = l :=
  replaceSubAux_id hc l.length l hl

theorem splitOnChar_id {sep : Char} :
    ∀ {l : List Char}, sep ∉ l → splitOnChar sep l = [l] := by
  intro l
  induction l with
  | nil => intro _; rfl
  | cons a as ih =>
    intro hl
    have ha : a ≠ sep := fun h => hl (by rw [h]; exact List.mem_cons_self _ _)
    simp only [splitOnChar]
    rw [ih (fun h => hl (List.mem_cons_of_mem _ h)), if_neg ha]

/-- Counterexample to claim C6: the title `"Self-driving"` contains
neither `" | "` nor `" - "`, so the claim predicts the full trimmed title;
the code splits on the bare hyphen and returns `"driving"`. -/
theorem C6_counterexample :
    containsSub "Self-driving".data " | ".data = false ∧
    containsSub "Self-driving".data " - ".data = false ∧
    (extract_identity
      { titleStr := some "Self-driving", h1text := none, links := [], visibleText := "", headings := [] }
      "https://acme.com").company_name = "driving" ∧
    ("driving" : String) ≠ pyStripS "Self-driving" := by
  refine ⟨by decide, by decide, by decide, by decide⟩

/-- Claim C6 (amended): `company_name` comes from replacing `" | "`→`"|"`
and `" - "`→`"-"` in the title and splitting on `'|'` (a bare `'|'` also
splits); with one part, the original title is re-split on the bare
hyphen `'-'` (hyphenated words split too) and the last part is trimmed;
only a title containing neither `'|'` nor `'-'` yields the full trimmed
title; an absent or empty title yields the capitalised first dot-label of
the URL host after removing every occurrence of `"www."`. -/
theorem C6_title_split_amended :
    (∀ (t : String) (d : Doc) (url : String), d.titleStr = some t → t ≠ "" →
      '|' ∉ t.data → '-' ∉ t.data →
      (extract_identity d url).company_name = pyStripS t) ∧
    (extract_identity
      { titleStr := some "A | B", h1text := none, links := [], visibleText := "", headings := [] }
      "https://e.com").company_name = "B" ∧
    (extract_identity
      { titleStr := some "A|B", h1text := none, links := [], visibleText := "", headings := [] }
      "https://e.com").company_name = "B" ∧
    (extract_identity
      { titleStr := some "Acme - Home", h1text := none, links := [], visibleText := "", headings := [] }
      "https://e.com").company_name = "Home" ∧
    (extract_identity
      { titleStr := some "Self-driving", h1text := none, links := [], visibleText := "", headings := [] }
      "https://e.com").company_name = "driving" ∧
    (extract_identity
      { titleStr := none, h1text := none, links := [], visibleText := "", headings := [] }
      "https://www.example.com").company_name = "Example" ∧
    (extract_identity
      { titleStr := none, h1text := none, links := [], visibleText := "", headings := [] }
      "https://wwwwww.x.com").company_name = "Wwwx" := by
  refine ⟨?_, by decide, by decide, by decide, by decide, by decide, by decide⟩
  intro t d url ht hne hpipe hdash
  simp only [extract_identity, ht, Option.getD_some]
  rw [replaceSub_id (List.mem_cons_of_mem _ (List.mem_cons_self _ _)) hpipe]
  rw [replaceSub_id (List.mem_cons_of_mem _ (List.mem_cons_self _ _)) hdash]
  rw [splitOnChar_id hpipe, if_pos hne]
  simp only [List.map_cons, List.map_nil, List.length_cons, List.length_nil]
  rw [if_neg (by omega)]
  rw [splitOnChar_id hdash]
  simp only [List.length_cons, List.length_nil]
  rw [if_neg (by omega)]
  rfl

theorem C6_witness :
    (extract_identity
      { titleStr := some "Plain Title", h1text := none, links := [], visibleText := "", headings := [] }
      "https://e.com").company_name = pyStripS "Plain Title" :=
  C6_title_split_amended.1 "Plain Title"
    { titleStr := some "Plain Title", h1text := none, links := [], visibleText := "", headings := [] }
    "https://e.com" (by decide) (by decide) (by decide) (by decide)

theorem filter_dropWhile_eq {p q : Char → Bool} (hpq : ∀ c, q c = true → p c = false) :
    ∀ l : List Char, (l.dropWhile q).filter p = l.filter p := by
  intro l
  induction l with
  | nil => rfl
  | cons a as ih =>
    cases hq : q a with
    | true =>
      rw [List.dropWhile_cons_of_pos hq, List.filter_cons_of_neg (by simp [hpq a hq])]
      exact ih
    | false =>
      rw [List.dropWhile_cons_of_neg (by simp [hq])]

/-- Stripping surrounding whitespace does not change the digit-and-plus
normal form used for phone deduplication. -/
theorem cleanPh_pyStrip (l : List Char) : cleanPh (pyStrip l) = cleanPh l := by
  have hws : ∀ c, isPySpace c = true → (c.isDigit || decide (c = '+')) = false := by
    intro c hc
    simp only [isPySpace, Bool.or_eq_true, decide_eq_true_eq] at hc
    rcases hc with ((((h | h) | h) | h) | h) | h <;> subst h <;> decide
  unfold cleanPh pyStrip
  rw [List.filter_reverse, filter_dropWhile_eq hws, List.filter_reverse,
    List.reverse_reverse, filter_dropWhile_eq hws]

/-- The invariant carried by the dedup/filter loop of `extract_phones`. -/
def PhoneInv (acc : List String × List (List Char)) : Prop :=
  (∀ m ∈ acc.1, cleanPh m.data ∈ acc.2) ∧
  (∀ m ∈ acc.1, 8 ≤ (cleanPh m.data).length ∧ bareNumeral (cleanPh m.data) = false) ∧
  List.Pairwise (fun a b => cleanPh a.data ≠ cleanPh b.data) acc.1

theorem phoneFold_inv :
    ∀ (ms : List (List Char)) (acc : List String × List (List Char)),
      PhoneInv acc → PhoneInv (ms.foldl phoneFold acc) := by
  intro ms
  induction ms with
  | nil => intro acc h; exact h
  | cons m ms ih =>
    intro acc h
    simp only [List.foldl_cons]
    apply ih
    unfold phoneFold
    dsimp only
    split
    · rename_i hcond
      split
      · rename_i hbare
        obtain ⟨h1, h2, h3⟩ := h
        have hdata : ((⟨pyStrip m⟩ : String)).data = pyStrip m := rfl
        refine ⟨?_, ?_, ?_⟩
        · intro x hx
          rcases List.mem_append.mp hx with hx | hx
          · exact List.mem_append.mpr (Or.inl (h1 x hx))
          · rw [List.mem_singleton.mp hx]
            rw [hdata, cleanPh_pyStrip]
            exact List.mem_append.mpr (Or.inr (List.mem_singleton.mpr rfl))
        · intro x hx
          rcases List.mem_append.mp hx with hx | hx
          · exact h2 x hx
          · rw [List.mem_singleton.mp hx]
            rw [hdata, cleanPh_pyStrip]
            exact ⟨hcond.1, Bool.not_eq_true _ ▸ (by exact fun habs => hbare habs)⟩
        · rw [List.pairwise_append]
          refine ⟨h3, List.pairwise_singleton _ _, ?_⟩
          intro a ha b hb
          rw [List.mem_singleton.mp hb, hdata, cleanPh_pyStrip]
          intro heq
          exact hcond.2 (heq ▸ h1 a ha)
      · exact h
    · exact h

/-- Claim C7: `extract_phones` deduplicates by the digit-and-plus normal
form, discards candidates whose normal form is shorter than 8 characters
or a bare 1–4 digit numeral, and on the spec's example returns exactly
the two formatted matches, whose digit-only forms are `15551234567` and
`5559876543`; a bare `123` is never returned. -/
theorem C7_phone_filters_and_example :
    (∀ t : String,
      List.Pairwise (fun a b => cleanPh a.data ≠ cleanPh b.data) (extract_phones t) ∧
      ∀ m ∈ extract_phones t,
        8 ≤ (cleanPh m.data).length ∧ bareNumeral (cleanPh m.data) = false) ∧
    extract_phones "Call +1-555-123-4567 or (555) 987-6543" =
      ["+1-555-123-4567", "(555) 987-6543"] ∧
    (extract_phones "Call +1-555-123-4567 or (555) 987-6543").map
      (fun s => (⟨s.data.filter Char.isDigit⟩ : String)) = ["15551234567", "5559876543"] ∧
    ("123" : String) ∉ extract_phones "Call +1-555-123-4567 or (555) 987-6543" := by
  refine ⟨?_, by decide, by decide, by decide⟩
  intro t
  unfold extract_phones
  split
  · exact ⟨List.Pairwise.nil, fun m hm => absurd hm (by simp)⟩
  · have h := phoneFold_inv (scanAll (matcherOfM phoneM) t.data) ([], [])
      ⟨fun m hm => absurd hm (by simp), fun m hm => absurd hm (by simp), List.Pairwise.nil⟩
    exact ⟨h.2.2, h.2.1⟩

theorem C7_witness :
    8 ≤ (cleanPh ("+1-555-123-4567" : String).data).length ∧
    bareNumeral (cleanPh ("+1-555-123-4567" : String).data) = false :=
  (C7_phone_filters_and_example.1 "Call +1-555-123-4567 or (555) 987-6543").2
    "+1-555-123-4567" (by decide)

theorem pyAdd_nodup {α : Type} [DecidableEq α] {acc : List α} (x : α)
    (h : acc.Nodup) : (pyAdd acc x).Nodup := by
  unfold pyAdd
  split
  · exact h
  · rename_i hx
    rw [List.nodup_append]
    exact ⟨h, List.nodup_singleton x,
      fun a ha hax => hx ((List.mem_singleton.mp hax) ▸ ha)⟩

theorem pyDedupFirst_nodup_aux {α : Type} [DecidableEq α] :
    ∀ (l acc : List α), acc.Nodup → (l.foldl pyAdd acc).Nodup := by
  intro l
  induction l with
  | nil => intro acc h; exact h
  | cons a l ih =>
    intro acc h
    simp only [List.foldl_cons]
    exact ih (pyAdd acc a) (pyAdd_nodup a h)

theorem pyDedupFirst_nodup {α : Type} [DecidableEq α] (l : List α) :
    (pyDedupFirst l).Nodup :=
  pyDedupFirst_nodup_aux l [] List.nodup_nil

theorem takeRun_all (p : Char → Bool) :
    ∀ l : List Char, ∀ c ∈ (takeRun p l).1, p c = true := by
  intro l
  induction l with
  | nil => intro c hc; simp [takeRun] at hc
  | cons a as ih =>
    intro c hc
    by_cases hp : p a
    · simp only [takeRun, if_pos hp] at hc
      rcases List.mem_cons.mp hc with rfl | hc'
      · exact hp
      · exact ih c hc'
    · simp only [takeRun, if_neg hp] at hc
      simp at hc

theorem dotSplits_eq :
    ∀ (run pre post : List Char), (pre, post) ∈ dotSplits run →
      run = pre ++ '.' :: post := by
  intro run
  induction run with
  | nil => intro pre post h; simp [dotSplits] at h
  | cons c cs ih =>
    intro pre post h
    simp only [dotSplits] at h
    rcases List.mem_append.mp h with h1 | h2
    · split at h1
      · rename_i hc
        have heq := List.mem_singleton.mp h1
        obtain ⟨rfl, rfl⟩ := Prod.mk.injEq .. ▸ heq
        rw [hc]
        rfl
      · simp at h1
    · rcases List.mem_map.mp h2 with ⟨⟨p1, p2⟩, hmem, heq⟩
      obtain ⟨rfl, rfl⟩ := Prod.mk.injEq .. ▸ heq.symm
      have hcs := ih p1 post hmem
      rw [hcs]
      rfl

theorem emailTryDomain_spec (rest0 : List Char) :
    ∀ (cands : List (List Char × List Char)) (pre tld rem : List Char),
      emailTryDomain rest0 cands = some (pre, tld, rem) →
      ∃ post, (pre, post) ∈ cands ∧ pre ≠ [] ∧
        tld = (takeRun Char.isAlpha (post ++ rest0)).1 ∧ 2 ≤ tld.length := by
  intro cands
  induction cands with
  | nil => intro pre tld rem h; simp [emailTryDomain] at h
  | cons hd more ih =>
    intro pre tld rem h
    obtain ⟨p, post⟩ := hd
    simp only [emailTryDomain] at h
    split at h
    · rcases ih pre tld rem h with ⟨post', hmem, hne, htld, hlen⟩
      exact ⟨post', List.mem_cons_of_mem _ hmem, hne, htld, hlen⟩
    · rename_i hpne
      split at h
      · rename_i hlen
        simp only [Option.some.injEq, Prod.mk.injEq] at h
        obtain ⟨rfl, rfl, rfl⟩ := h
        refine ⟨post, List.mem_cons_self _ _, ?_, rfl, hlen⟩
        intro habs
        exact hpne (by rw [habs]; rfl)
      · rcases ih pre tld rem h with ⟨post', hmem, hne, htld, hlen⟩
        exact ⟨post', List.mem_cons_of_mem _ hmem, hne, htld, hlen⟩

/-- The shape of an email token per the source regex
`[a-zA-Z0-9._%+-]+@[a-zA-Z0-9.-]+\.[a-zA-Z]{2,}`. -/
def EmailShape (e : String) : Prop :=
  ∃ loc dom tld : List Char,
    e.data = loc ++ '@' :: (dom ++ '.' :: tld) ∧
    loc ≠ [] ∧ (∀ c ∈ loc, isLocalC c = true) ∧
    dom ≠ [] ∧ (∀ c ∈ dom, isDomainC c = true) ∧
    2 ≤ tld.length ∧ (∀ c ∈ tld, c.isAlpha = true)

theorem emailMatchAt_shape (l m r : List Char) (h : emailMatchAt l = some (m, r)) :
    EmailShape (⟨m⟩ : String) := by
  simp only [emailMatchAt] at h
  split at h
  · exact absurd h (by simp)
  · rename_i hloc
    split at h
    · rename_i r2 heq2
      split at h
      · rename_i pre tld rem hdom
        simp only [Option.some.injEq, Prod.mk.injEq] at h
        obtain ⟨rfl, rfl⟩ := h
        rcases emailTryDomain_spec _ _ pre tld rem hdom with ⟨post, hmem, hne, htld, hlen⟩
        have hmem' := List.mem_reverse.mp hmem
        have hrun := dotSplits_eq _ pre post hmem'
        refine ⟨(takeRun isLocalC l).1, pre, tld, rfl, ?_, ?_, hne, ?_, hlen, ?_⟩
        · intro habs
          rw [habs] at hloc
          exact hloc rfl
        · exact takeRun_all isLocalC l
        · intro c hc
          have : c ∈ (takeRun isDomainC r2).1 := by
            rw [hrun]
            exact List.mem_append.mpr (Or.inl hc)
          exact takeRun_all isDomainC r2 c this
        · intro c hc
          rw [htld] at hc
          exact takeRun_all Char.isAlpha _ c hc
      · exact absurd h (by simp)
    · exact absurd h (by simp)

/-- Claim C8: `extract_emails` returns a deduplicated list whose every
element has the email-token shape `local@domain.tld`, and on the spec's
example its members are exactly `info@acme.com` and `support@acme.com`. -/
theorem C8_email_shape_and_example :
    (∀ t : String, (extract_emails t).Nodup ∧ ∀ e ∈ extract_emails t, EmailShape e) ∧
    (∀ x : String,
      x ∈ extract_emails "Contact us at info@acme.com or support@acme.com" ↔
      (x = "info@acme.com" ∨ x = "support@acme.com")) := by
  constructor
  · intro t
    constructor
    · exact pyDedupFirst_nodup _
    · intro e he
      have he2 := pyDedupFirst_subset he
      rcases List.mem_map.mp he2 with ⟨m, hm, rfl⟩
      rcases scanAll_sound emailMatchAt hm with ⟨l0, r, hmatch⟩
      exact emailMatchAt_shape l0 m r hmatch
  · intro x
    rw [show extract_emails "Contact us at info@acme.com or support@acme.com" =
      ["info@acme.com", "support@acme.com"] from by decide]
    simp

theorem C8_witness : EmailShape "info@acme.com" :=
  (C8_email_shape_and_example.1 "Contact us at info@acme.com or support@acme.com").2
    "info@acme.com" (by decide)

theorem dictGet_cons (p : String × String) (ps : List (String × String)) (k : String) :
    dictGet (p :: ps) k = if p.1 = k then some p.2 else dictGet ps k := by
  by_cases hp : p.1 = k
  · simp [dictGet, List.find?_cons, hp]
  · simp [dictGet, List.find?_cons, hp]

theorem dictGet_dictSet_self :
    ∀ (m : List (String × String)) (k v : String),
      dictGet (dictSet m k v) k = some v := by
  intro m
  induction m with
  | nil => intro k v; rw [dictSet, dictGet_cons]; simp
  | cons p ps ih =>
    intro k v
    by_cases hp : p.1 = k
    · rw [dictSet, if_pos hp, dictGet_cons]; simp
    · rw [dictSet, if_neg hp, dictGet_cons, if_neg hp]
      exact ih k v

theorem dictGet_dictSet_other {k' k : String} (h : k' ≠ k) :
    ∀ (m : List (String × String)) (v : String),
      dictGet (dictSet m k v) k' = dictGet m k' := by
  intro m
  induction m with
  | nil =>
    intro v
    rw [dictSet, dictGet_cons, if_neg (fun hc => h hc.symm)]
  | cons p ps ih =>
    intro v
    by_cases hp : p.1 = k
    · rw [dictSet, if_pos hp, dictGet_cons, dictGet_cons,
        if_neg (fun hc => h hc.symm), if_neg (fun hc => h (by rw [← hc, hp]))]
    · rw [dictSet, if_neg hp, dictGet_cons, dictGet_cons]
      by_cases hpk : p.1 = k'
      · rw [if_pos hpk, if_pos hpk]
      · rw [if_neg hpk, if_neg hpk]
        exact ih v

theorem dictSet_mem :
    ∀ (m : List (String × String)) (k v : String) (kv : String × String),
      kv ∈ dictSet m k v → kv = (k, v) ∨ kv ∈ m := by
  intro m
  induction m with
  | nil => intro k v kv h; simp [dictSet] at h; exact Or.inl h
  | cons p ps ih =>
    intro k v kv h
    by_cases hp : p.1 = k
    · rw [dictSet, if_pos hp] at h
      rcases List.mem_cons.mp h with rfl | h'
      · exact Or.inl rfl
      · exact Or.inr (List.mem_cons_of_mem _ h')
    · rw [dictSet, if_neg hp] at h
      rcases List.mem_cons.mp h with rfl | h'
      · exact Or.inr (List.mem_cons_self _ _)
      · rcases ih k v kv h' with h'' | h''
        · exact Or.inl h''
        · exact Or.inr (List.mem_cons_of_mem _ h'')

/-- Claim C9: `categorize_social_links` processes links in input order
and, per platform, keeps the last link assigned to that platform's bucket
(last-write-wins): the stored value for `p` is the last input link whose
first-matching branch is `p`. -/
theorem C9_social_last_write_wins (links : List String) (p : String) :
    dictGet (categorize_social_links links) p =
      (links.filter (fun l => bucketOf l = some p)).getLast? := by
  induction links using List.reverseRecOn with
  | nil => rfl
  | append_singleton L x ih =>
    unfold categorize_social_links at ih ⊢
    rw [List.foldl_append, List.filter_append]
    simp only [List.foldl_cons, List.foldl_nil, List.filter_cons, List.filter_nil]
    cases hb : bucketOf x with
    | none =>
      dsimp only
      simpa using ih
    | some q =>
      dsimp only
      by_cases hq : q = p
      · subst hq
        rw [dictGet_dictSet_self]
        simp
      · rw [dictGet_dictSet_other (fun hc => hq hc.symm)]
        simpa [hq] using ih

/-- The prefix test characterised as an existential decomposition. -/
theorem startsWithL_iff :
    ∀ (pre l : List Char), startsWithL pre l = true ↔ ∃ post, l = pre ++ post := by
  intro pre
  induction pre with
  | nil =>
    intro l
    exact ⟨fun _ => ⟨l, rfl⟩, fun _ => rfl⟩
  | cons a as ih =>
    intro l
    cases l with
    | nil =>
      simp only [startsWithL, List.cons_append]
      constructor
      · intro h; cases h
      · rintro ⟨post, h⟩; cases h
    | cons b bs =>
      simp only [startsWithL, Bool.and_eq_true, decide_eq_true_eq, List.cons_append]
      rw [ih bs]
      constructor
      · rintro ⟨rfl, post, rfl⟩
        exact ⟨post, rfl⟩
      · rintro ⟨post, heq⟩
        injection heq with h1 h2
        exact ⟨h1.symm, post, h2⟩

/-- The substring test characterised as an existential decomposition. -/
theorem containsSub_iff :
    ∀ (hay needle : List Char),
      containsSub hay needle = true ↔ ∃ pre post, hay = pre ++ needle ++ post := by
  intro hay
  induction hay with
  | nil =>
    intro needle
    simp only [containsSub]
    rw [startsWithL_iff]
    constructor
    · rintro ⟨post, h⟩
      exact ⟨[], post, by simpa using h⟩
    · rintro ⟨pre, post, h⟩
      cases pre with
      | nil => exact ⟨post, by simpa using h⟩
      | cons c cs => cases h
  | cons c cs ih =>
    intro needle
    simp only [containsSub, Bool.or_eq_true]
    rw [startsWithL_iff, ih]
    constructor
    · rintro (⟨post, h⟩ | ⟨pre, post, h⟩)
      · exact ⟨[], post, by simpa using h⟩
      · exact ⟨c :: pre, post, by simp [h]⟩
    · rintro ⟨pre, post, h⟩
      cases pre with
      | nil => exact Or.inl ⟨post, by simpa using h⟩
      | cons d ds =>
        injection h with h1 h2
        exact Or.inr ⟨ds, post, h2⟩

/-- A string containing `n1 ++ n2` contains `n1`. -/
theorem containsSub_append_left {hay n1 n2 : List Char}
    (h : containsSub hay (n1 ++ n2) = true) : containsSub hay n1 = true := by
  rcases (containsSub_iff hay (n1 ++ n2)).mp h with ⟨pre, post, heq⟩
  exact (containsSub_iff hay n1).mpr ⟨pre, n2 ++ post, by simp [heq]⟩

theorem bucketOf_mem_platforms (url p : String) (h : bucketOf url = some p) :
    p ∈ (["linkedin", "twitter", "facebook", "instagram", "youtube"] : List String) := by
  simp only [bucketOf] at h
  split_ifs at h <;> injection h with h2
  all_goals subst h2
  all_goals decide

/-- Claim C10: every URL accepted by `is_social_link` is assigned to some
bucket by the categoriser's branch chain, and the keys of the returned
mapping always lie in the five recognised platform names. -/
theorem C10_social_total_and_keys :
    (∀ url : String, is_social_link url = true → (bucketOf url).isSome = true) ∧
    (∀ (links : List String) (kv : String × String),
      kv ∈ categorize_social_links links →
      kv.1 ∈ (["linkedin", "twitter", "facebook", "instagram", "youtube"] : List String)) := by
  constructor
  · intro url h
    unfold is_social_link SOCIAL_DOMAINS at h
    simp only [List.any_cons, List.any_nil, Bool.or_eq_true, Bool.or_false] at h
    show (if containsSubS (lowerS url) "linkedin" then some "linkedin"
      else if containsSubS (lowerS url) "twitter" || containsSubS (lowerS url) "x.com"
        then some "twitter"
      else if containsSubS (lowerS url) "facebook" then some "facebook"
      else if containsSubS (lowerS url) "instagram" then some "instagram"
      else if containsSubS (lowerS url) "youtube" then some "youtube"
      else none).isSome = true
    split_ifs with h1 h2 h3 h4 h5
    · rfl
    · rfl
    · rfl
    · rfl
    · rfl
    · exfalso
      rcases h with h | h | h | h | h | h
      · exact absurd (containsSub_append_left
          (show containsSub (lowerS url).data ("linkedin".data ++ ".com".data) = true from h))
          (by simpa [containsSubS] using h1)
      · simp only [Bool.or_eq_true] at h2
        push_neg at h2
        exact absurd (containsSub_append_left
          (show containsSub (lowerS url).data ("twitter".data ++ ".com".data) = true from h))
          (by simpa [containsSubS] using h2.1)
      · simp only [Bool.or_eq_true] at h2
        push_neg at h2
        exact absurd h h2.2
      · exact absurd (containsSub_append_left
          (show containsSub (lowerS url).data ("facebook".data ++ ".com".data) = true from h))
          (by simpa [containsSubS] using h3)
      · exact absurd (containsSub_append_left
          (show containsSub (lowerS url).data ("instagram".data ++ ".com".data) = true from h))
          (by simpa [containsSubS] using h4)
      · exact absurd (containsSub_append_left
          (show containsSub (lowerS url).data ("youtube".data ++ ".com".data) = true from h))
          (by simpa [containsSubS] using h5)
  · have aux : ∀ (L : List String) (m : List (String × String)),
        (∀ kv ∈ m, kv.1 ∈ (["linkedin", "twitter", "facebook", "instagram", "youtube"] :
          List String)) →
        ∀ kv ∈ L.foldl (fun socials link =>
          match bucketOf link with
          | some p => dictSet socials p link
          | none => socials) m,
          kv.1 ∈ (["linkedin", "twitter", "facebook", "instagram", "youtube"] : List String) := by
      intro L
      induction L with
      | nil => intro m hm kv h; exact hm kv h
      | cons u L ih =>
        intro m hm kv h
        simp only [List.foldl_cons] at h
        refine ih _ ?_ kv h
        intro kv' hkv'
        cases hb : bucketOf u with
        | none => rw [hb] at hkv'; exact hm kv' hkv'
        | some q =>
          rw [hb] at hkv'
          rcases dictSet_mem m q u kv' hkv' with rfl | h'
          · exact bucketOf_mem_platforms u q hb
          · exact hm kv' h'
    intro links kv h
    exact aux links [] (fun kv' h' => absurd h' (by simp)) kv h

theorem C10_witness :
    (bucketOf "https://x.com/acme").isSome = true ∧
    (("twitter", "https://x.com/acme") : String × String).1 ∈
      (["linkedin", "twitter", "facebook", "instagram", "youtube"] : List String) :=
  ⟨C10_social_total_and_keys.1 "https://x.com/acme" (by decide),
   C10_social_total_and_keys.2 ["https://x.com/acme"] ("twitter", "https://x.com/acme")
     (by decide)⟩

end CompanyScraper
